import Mathlib

/-!
Verification of the message/event data-model core of the miraipp library.

The definitions below are a shallow embedding of the C++ sources:
strings are modelled as `String` (or `List Char` where the code works
byte-by-byte), `std::vector<Segment>` as `List Segment`, the
`Segment` tagged union as an inductive type, and fallible code returns an
explicit result type.  Helper functions that live in headers not present in
the source tree (`message/common.h`, `utils/string.h`, the generic
`VariantWrapper`) are modelled from the specification and are marked as such
in their doc comments.
-/

namespace Miraipp

/-- Enum `SegmentType` from `segment.h` (values `at, at_all, face, plain,
image, flash_image, xml, json, app, poke`; the sentinel `max_value` is not a
live value and is modelled by `segmentTypeEnumerators.length`).  The first
enumerator is spelled `at_` because `at` is a reserved word in Lean. -/
inductive SegmentType : Type
  | at_ | at_all | face | plain | image
  | flash_image | xml | json | app | poke
deriving DecidableEq, Repr, Inhabited

/-- Numeric value of each `SegmentType` enumerator (declaration order). -/
def SegmentType.toNat : SegmentType → Nat
  | .at_ => 0 | .at_all => 1 | .face => 2 | .plain => 3 | .image => 4
  | .flash_image => 5 | .xml => 6 | .json => 7 | .app => 8 | .poke => 9

/-- The `Segment` tagged union: `msg::Variant = std::variant<At, AtAll, Face,
Plain, Image, FlashImage, Xml, Json, App, Poke>` from `segment.h`, with each
alternative's fields.  64-bit ids are modelled as `Int`. -/
inductive Segment : Type
  | At (target : Int) (display : String)
  | AtAll
  | Face (face_id : Option Int) (name : Option String)
  | Plain (text : String)
  | Image (image_id url path : Option String)
  | FlashImage (image_id url path : Option String)
  | Xml (xml : String)
  | Json (json : String)
  | App (content : String)
  | Poke (name : String)
deriving DecidableEq, Repr, Inhabited

/-- Discriminant of a `Segment` (the `kind()` of the variant wrapper). -/
def Segment.kind : Segment → SegmentType
  | .At .. => .at_
  | .AtAll => .at_all
  | .Face .. => .face
  | .Plain _ => .plain
  | .Image .. => .image
  | .FlashImage .. => .flash_image
  | .Xml _ => .xml
  | .Json _ => .json
  | .App _ => .app
  | .Poke _ => .poke

/-- Modelled from the spec: `is_plain` from `message/common.h` (header not
under `src/`); checks that the active alternative of a segment is `Plain`. -/
def is_plain : Segment → Bool
  | .Plain _ => true
  | _ => false

/-- Modelled from the spec: `get_plain` from `message/common.h` (header not
under `src/`); returns the text of a `Plain` segment.  The C++ accessor has
the precondition that the segment is plain; the catch-all branch is never
reached under that precondition. -/
def get_plain : Segment → String
  | .Plain t => t
  | _ => ""

/-- Per-alternative equality of segments, from the `operator==` of each
segment struct in `segment.h`, combined with the variant-wrapper rule
(equal iff same kind and the active alternatives compare equal).
`At` compares targets only; `Face` prefers id-to-id comparison when both
sides carry an id; `Image`/`FlashImage` prefer id, then url, then path. -/
def segEq : Segment → Segment → Bool
  | .At t _, .At t' _ => t == t'
  | .AtAll, .AtAll => true
  | .Face i n, .Face i' n' =>
    match i, i' with
    | some a, some b => a == b
    | _, _ => n == n'
  | .Plain t, .Plain t' => t == t'
  | .Image i u p, .Image i' u' p' =>
    match i, i' with
    | some a, some b => a == b
    | _, _ =>
      match u, u' with
      | some a, some b => a == b
      | _, _ => p == p'
  | .FlashImage i u p, .FlashImage i' u' p' =>
    match i, i' with
    | some a, some b => a == b
    | _, _ =>
      match u, u' with
      | some a, some b => a == b
      | _, _ => p == p'
  | .Xml a, .Xml b => a == b
  | .Json a, .Json b => a == b
  | .App a, .App b => a == b
  | .Poke a, .Poke b => a == b
  | _, _ => false

/-- A `MessageChain` is `std::vector<Segment>`. -/
def MessageChain : Type := List Segment

/-- The `Message` class from `message.h`: a wrapper around a message chain. -/
structure Message : Type where
  chain_ : List Segment
deriving DecidableEq, Repr, Inhabited

/-- Equality of two message chains (`std::vector::operator==`): equal sizes
and element-wise segment equality. -/
def chainEq (a b : List Segment) : Bool :=
  a.length == b.length && (a.zip b).all fun p => segEq p.1 p.2

/-- The `operator==(const Message&, const Message&)` from `message.h`:
compares the underlying chains. -/
def messageEq (lhs rhs : Message) : Bool :=
  chainEq lhs.chain_ rhs.chain_

/-! The escaping grammar (`Message::escape` / `Message::unescape` from
`message.cpp`).  Strings are modelled as `List Char`, one entry per byte. -/

/-- The `Message::escape` scan loop from `message.cpp`: the loop finds the
next byte in the reserved set (backslash, both square brackets, both curly
braces), copies the intervening run verbatim and appends the encoded form of
the reserved byte per the `switch`; bytes outside the reserved set are
copied unchanged.  The recursion below processes the same bytes in the same
order, one byte at a time. -/
def escape : List Char → List Char
  | [] => []
  | c :: rest =>
    (if c == '\\' then ['\\', '\\']
     else if c == '[' then ['\\', '[']
     else if c == ']' then ['\\', ']']
     else if c == '{' then ['[', '[']
     else if c == '}' then [']', ']']
     else [c]) ++ escape rest

/-- Outcome of `Message::unescape`.  The function either returns the decoded
string, throws `RuntimeError("Erroneous escaped string")` (`malformed`), or
indexes the input one past its end (`oob`), which for a `std::string_view`
is an out-of-bounds read, i.e. undefined behavior in the C++ source. -/
inductive UnescapeResult : Type
  | ok (result : List Char)
  | malformed
  | oob
deriving DecidableEq, Repr

/-- The `find_first_of` call of the `unescape` loop: index of the first
occurrence, at or after `offset`, of a character from `targets`. -/
def find_first_of (l : List Char) (targets : List Char) (offset : Nat) : Option Nat :=
  match (l.drop offset).findIdx? (fun c => targets.contains c) with
  | some i => some (offset + i)
  | none => none

/-- Loop body of `Message::unescape` from `message.cpp`, with the running
`offset` and accumulated `result` made explicit.  The scan set is exactly
the source's `find_first_of("\\[", offset)`, i.e. backslash and the left
square bracket only, so the right-bracket branch of the source (kept below
for fidelity) is unreachable.  The source checks
`length == escaped.size() - 1` (with `length = pos - offset`) before reading
`escaped[pos + 1]`; when that read is past the end the result is `oob`.
The structural `fuel` parameter only bounds the number of loop iterations;
`unescape` passes `escaped.length + 1`, which is never exhausted because
every iteration advances `offset` by at least two and the found position is
always inside the input. -/
def unescapeLoop (escaped : List Char) : Nat → Nat → List Char → UnescapeResult
  | 0, offset, result => .ok (result ++ escaped.drop offset)
  | fuel + 1, offset, result =>
    match find_first_of escaped ['\\', '['] offset with
    | none => .ok (result ++ escaped.drop offset)
    | some pos =>
      let length := pos - offset
      if length = escaped.length - 1 then .malformed
      else
        let result := result ++ (escaped.drop offset).take length
        match escaped.get? (pos + 1) with
        | none => .oob
        | some next =>
          if escaped.getD pos ' ' == '[' then
            if next != '[' then .malformed
            else unescapeLoop escaped fuel (pos + 2) (result ++ ['{'])
          else if escaped.getD pos ' ' == ']' then
            if next != ']' then .malformed
            else unescapeLoop escaped fuel (pos + 2) (result ++ ['}'])
          else
            if next != '\\' && next != '[' && next != ']' then .malformed
            else unescapeLoop escaped fuel (pos + 2) (result ++ [next])

/-- `Message::unescape` from `message.cpp`. -/
def unescape (escaped : List Char) : UnescapeResult :=
  unescapeLoop escaped (escaped.length + 1) 0 []

/-! Name tables and type-level lists from `events.h` and `segment_fwd.h`,
modelled as lists of alternative names in declaration order. -/

/-- The ordered alternative list of `EventVariant` from `events.h`
(lines 369-379), by alternative name. -/
def eventVariantAlternatives : List String :=
  ["GroupMessage", "FriendMessage", "TempMessage",
   "BotOnlineEvent", "BotOfflineEventActive", "BotOfflineEventForce", "BotOfflineEventDropped",
   "BotReloginEvent", "GroupRecallEvent", "FriendRecallEvent", "BotGroupPermissionChangeEvent",
   "BotMuteEvent", "BotUnmuteEvent", "BotJoinGroupEvent", "BotLeaveEventActive", "BotLeaveEventKick",
   "GroupNameChangeEvent", "GroupEntranceAnnouncementChangeEvent", "GroupMuteAllEvent",
   "GroupAllowAnonymousChatEvent", "GroupAllowConfessTalkEvent", "GroupAllowMemberInviteEvent",
   "MemberJoinEvent", "MemberLeaveEventKick", "MemberLeaveEventQuit", "MemberCardChangeEvent",
   "MemberSpecialTitleChangeEvent", "MemberPermissionChangeEvent", "MemberMuteEvent",
   "MemberUnmuteEvent", "NewFriendRequestEvent", "MemberJoinRequestEvent"]

/-- The enumerators of `enum class EventType` from `events.h` in declaration
order, excluding the sentinel `max_value` (whose numeric value equals the
length of this list). -/
def eventTypeEnumerators : List String :=
  ["group_message", "friend_message", "temp_message",
   "bot_online_event", "bot_offline_event_active", "bot_offline_event_force",
   "bot_offline_event_dropped",
   "bot_relogin_event", "group_recall_event", "friend_recall_event",
   "bot_group_permission_change_event",
   "bot_mute_event", "bot_unmute_event", "bot_join_group_event", "bot_leave_event_active",
   "bot_leave_event_kick",
   "group_name_change_event", "group_entrance_announcement_change_event", "group_mute_all_event",
   "group_allow_anonymous_chat_event", "group_allow_confess_talk_event",
   "group_allow_member_invite_event",
   "member_join_event", "member_leave_event_kick", "member_leave_event_quit",
   "member_card_change_event",
   "member_special_title_change_event", "member_permission_change_event", "member_mute_event",
   "member_unmute_event", "new_friend_request_event", "member_join_request_event"]

/-- The initializer list of `event_type_names` exactly as written in
`events.h` (lines 400-411). -/
def eventTypeNamesEntries : List String :=
  ["GroupMessage", "FriendMessage", "TempMessage",
   "BotOnlineEvent", "BotOfflineEventActive", "BotOfflineEventForce", "BotOfflineEventDropped",
   "BotReloginEvent", "GroupRecallEvent", "FriendRecallEvent", "BotGroupPermissionChangeEvent",
   "BotMuteEvent", "BotUnmuteEvent", "BotJoinGroupEvent", "GroupNameChangeEvent",
   "GroupEntranceAnnouncementChangeEvent", "GroupMuteAllEvent", "GroupAllowAnonymousChatEvent",
   "GroupAllowConfessTalkEvent", "GroupAllowMemberInviteEvent", "MemberJoinEvent",
   "MemberLeaveEventKick", "MemberLeaveEventQuit", "MemberCardChangeEvent",
   "MemberSpecialTitleChangeEvent", "MemberPermissionChangeEvent", "MemberMuteEvent",
   "MemberUnmuteEvent", "NewFriendRequestEvent", "MemberJoinRequestEvent"]

/-- The full `event_type_names` object: a
`std::array<std::string_view, std::variant_size_v<EventVariant>>` built from
the initializer list above; the aggregate initialization value-initializes
the remaining entries, i.e. pads with empty string_views up to the variant
size. -/
def event_type_names : List String :=
  eventTypeNamesEntries ++
    List.replicate (eventVariantAlternatives.length - eventTypeNamesEntries.length) ""

/-- The ordered alternative list of `msg::Variant` from `segment.h`
(line 260), by alternative name. -/
def msgVariantAlternatives : List String :=
  ["At", "AtAll", "Face", "Plain", "Image",
   "FlashImage", "Xml", "Json", "App", "Poke"]

/-- The element list of `msg::detail::MsgTuple` from `segment_fwd.h`
(lines 31-32), by element name.  Note that it starts with the two
non-segment structs `Source` and `Quote`. -/
def msgTupleElements : List String :=
  ["Source", "Quote", "At", "AtAll", "Face",
   "Plain", "Image", "FlashImage", "Xml", "Json", "App", "Poke"]

/-- The alias `detail::segment_type<T>` from `segment_fwd.h` (line 47-48):
`std::tuple_element_t<static_cast<size_t>(T), msg::detail::MsgTuple>`,
i.e. the element of `MsgTuple` at the numeric value of the enum. -/
def detail_segment_type (t : SegmentType) : String :=
  msgTupleElements.getD t.toNat ""

/-- Name of the alternative of `msg::Variant` at the numeric value of a
`SegmentType` enumerator, i.e. the same-named alternative (the enum order
`at, at_all, ..., poke` mirrors the variant order `At, AtAll, ..., Poke`,
as checked by the `static_assert` in `segment.h`). -/
def segmentVariantName (t : SegmentType) : String :=
  msgVariantAlternatives.getD t.toNat ""

/-- All ten live values of `SegmentType` in declaration order. -/
def segmentTypeValues : List SegmentType :=
  [.at_, .at_all, .face, .plain, .image, .flash_image, .xml, .json, .app, .poke]

/-! Message construction, normalization and append operations from
`message.cpp`. -/

/-- Modelled from the spec: `combine_adjacent_text` from `message/common.h`
(header not under `src/`), the single normalization routine of §4.2: scan
the chain left to right and merge every run of consecutive `Plain` segments
into one by string concatenation, preserving the position of the first
segment of each run. -/
def combine_adjacent_text : List Segment → List Segment
  | [] => []
  | .Plain s :: rest =>
    match combine_adjacent_text rest with
    | .Plain t :: rest' => .Plain (s ++ t) :: rest'
    | r => .Plain s :: r
  | s :: rest => s :: combine_adjacent_text rest

/-- The `Message::operator+=(std::string_view)` from `message.cpp`: if the
chain is non-empty and its last element is plain, concatenate the text into
that last element; otherwise push a new `Plain` segment. -/
def append_text : List Segment → String → List Segment
  | [], t => [.Plain t]
  | [s], t => if is_plain s then [.Plain (get_plain s ++ t)] else [s, .Plain t]
  | s :: rest, t => s :: append_text rest t

/-- The `Message::operator+=(const Segment&)` from `message.cpp`: a plain
segment is delegated to the text append; any other segment is pushed at the
end of the chain. -/
def append_segment (l : List Segment) (s : Segment) : List Segment :=
  if is_plain s then append_text l (get_plain s) else l ++ [s]

/-- The `Message::operator+=(const MessageChain&)` from `message.cpp`: an
empty incoming chain is a no-op; otherwise the first incoming element is
appended through `operator+=(const Segment&)` (the seam rule) and the rest
of the incoming chain is bulk-inserted unchanged. -/
def append_chain (l : List Segment) : List Segment → List Segment
  | [] => l
  | s :: rest => append_segment l s ++ rest

/-- The constructors and assignment operators of `Message` from
`message.cpp`: default construction yields the empty chain, construction or
assignment from a chain normalizes it with `combine_adjacent_text`,
construction or assignment from a single segment or from a plain-text
string yields a one-element chain. -/
inductive MessageInit : Type
  | empty
  | fromChain (c : List Segment)
  | fromSegment (s : Segment)
  | fromText (t : String)

/-- Chain produced by each construction/assignment path of `Message`. -/
def initChain : MessageInit → List Segment
  | .empty => []
  | .fromChain c => combine_adjacent_text c
  | .fromSegment s => [s]
  | .fromText t => [.Plain t]

/-- One append operation on a `Message`: `operator+=` with a segment, a
plain-text string, a message chain, or another `Message`. -/
inductive AppendOp : Type
  | seg (s : Segment)
  | text (t : String)
  | chain (c : List Segment)
  | msg (m : Message)

/-- Effect of one append operation on the underlying chain. -/
def applyOp (l : List Segment) : AppendOp → List Segment
  | .seg s => append_segment l s
  | .text t => append_text l t
  | .chain c => append_chain l c
  | .msg m => append_chain l m.chain_

/-- Effect of a sequence of append operations, first to last. -/
def applyOps (l : List Segment) (ops : List AppendOp) : List Segment :=
  ops.foldl applyOp l

/-- Boolean check that no two adjacent elements of a chain are both
plain-text. -/
def noAdjacentPlainB : List Segment → Bool
  | a :: b :: rest => !(is_plain a && is_plain b) && noAdjacentPlainB (b :: rest)
  | _ => true

/-- No two adjacent elements of the chain are both plain-text (the standing
invariant of `Message`). -/
def NoAdjacentPlain (l : List Segment) : Prop :=
  noAdjacentPlainB l = true

instance (l : List Segment) : Decidable (NoAdjacentPlain l) :=
  inferInstanceAs (Decidable (noAdjacentPlainB l = true))

/-- The invariant, phrased as a chain condition on adjacent elements. -/
lemma noAdjacentPlain_iff_chain' : ∀ l : List Segment,
    NoAdjacentPlain l ↔ l.Chain' fun a b => ¬(is_plain a = true ∧ is_plain b = true)
  | [] => by simp [NoAdjacentPlain, noAdjacentPlainB]
  | [a] => by simp [NoAdjacentPlain, noAdjacentPlainB]
  | a :: b :: rest => by
    rw [NoAdjacentPlain, noAdjacentPlainB, List.chain'_cons,
      ← noAdjacentPlain_iff_chain' (b :: rest)]
    rw [NoAdjacentPlain]
    simp [-Bool.not_and, Bool.and_eq_true, not_and, and_comm]

/-- Side condition of an append operation: an appended raw chain, or the
chain of an appended `Message`, is internally normalized (the source
bulk-inserts it unchanged and assumes this). -/
def opOK : AppendOp → Prop
  | .chain c => NoAdjacentPlain c
  | .msg m => NoAdjacentPlain m.chain_
  | _ => True

/-! Query operations of `Message` from `message.cpp`. -/

/-- Modelled from the spec: `utils::ends_with` from `utils/string.h` (header
not under `src/`); checks that the second string is a suffix of the
first. -/
def utils_ends_with (s t : String) : Bool :=
  t.data.isSuffixOf s.data

/-- The `Message::ends_with(std::string_view)` overload from `message.cpp`
(lines 128-132): returns false when the chain is empty or its last element
is not plain; otherwise tests `utils::ends_with` against the text of the
FRONT element of the chain, exactly as the source does. -/
def Message.ends_with (m : Message) (text : String) : Bool :=
  if m.chain_.isEmpty || !is_plain (m.chain_.getLastD default) then false
  else utils_ends_with (get_plain (m.chain_.headD default)) text

/-- Stated from the claim, for comparison with `Message.ends_with`: the
chain is non-empty, its last element is a `Plain` segment, and the text of
that last segment ends with the argument. -/
def claimed_ends_with (m : Message) (text : String) : Bool :=
  match m.chain_.getLast? with
  | some (.Plain t) => utils_ends_with t text
  | _ => false

/-- Loop body of `Message::extract_text`: the dispatch visitor appends the
text of a `Plain` node to the result and ignores every other node. -/
def extract_step (res : String) (node : Segment) : String :=
  match node with
  | .Plain t => res ++ t
  | _ => res

/-- The `Message::extract_text` from `message.cpp`: fold `extract_step` over
the chain starting from the empty string. -/
def extract_text (m : Message) : String :=
  m.chain_.foldl extract_step ""

/-- Text of a `Plain` segment, if the segment is plain. -/
def plain_text? : Segment → Option String
  | .Plain t => some t
  | _ => none

/-- The `operator==(const Message&, std::string_view)` from `message.cpp`
(lines 91-95): false unless the chain has exactly one element and that
element is plain; otherwise compares the text of the front element with the
string. -/
def msg_eq_str (m : Message) (rhs : String) : Bool :=
  if m.chain_.length != 1 || !is_plain (m.chain_.headD default) then false
  else get_plain (m.chain_.headD default) == rhs

/-! The typed pattern match (`detail::match_types_impl` from `segment.h`).
The C++ template takes the expected alternatives as a pack of types; the
embedding identifies each alternative type with its `SegmentType` tag. -/

/-- Modelled from the spec: `VariantWrapper::get_if<T>` from
`utils/variant_wrapper.h` (header not under `src/`), per §4.1: returns a
reference to the stored value if `T` is the active alternative, absent
otherwise; never fails.  The returned segment models the reference. -/
def get_if (t : SegmentType) (s : Segment) : Option Segment :=
  if s.kind == t then some s else none

/-- The `detail::match_types_impl` from `segment.h` (lines 300-318): if the
chain size differs from the number of expected types, return absent;
otherwise collect `get_if` results at positions `0..k-1`; if any of them is
absent return absent, else return the tuple of the referenced segments. -/
def match_types_impl (ts : List SegmentType) (m : Message) : Option (List Segment) :=
  if m.chain_.length != ts.length then none
  else
    let ptrs := (ts.zip m.chain_).map fun p => get_if p.1 p.2
    if ptrs.any fun o => o.isNone then none
    else some (ptrs.filterMap id)

/-! Helper lemmas about the merge invariant. -/

/-- A segment is either a `Plain` or not plain. -/
lemma segment_plain_or (s : Segment) : (∃ t, s = .Plain t) ∨ is_plain s = false := by
  cases s <;> simp [is_plain]

/-- The empty chain satisfies the invariant. -/
lemma noAdjacentPlain_nil : NoAdjacentPlain [] := rfl

/-- A one-element chain satisfies the invariant. -/
lemma noAdjacentPlain_singleton (s : Segment) : NoAdjacentPlain [s] := rfl

/-- Replacing the text of a plain head preserves the invariant. -/
lemma noAdjacentPlain_cons_plain {x x' : String} {l : List Segment}
    (h : NoAdjacentPlain (.Plain x :: l)) : NoAdjacentPlain (.Plain x' :: l) := by
  rw [noAdjacentPlain_iff_chain', List.chain'_cons'] at h ⊢
  refine ⟨fun y hy => ?_, h.2⟩
  have := h.1 y hy
  simpa [is_plain] using this

/-- Prepending a non-plain segment preserves the invariant. -/
lemma noAdjacentPlain_cons_not_plain {s : Segment} {l : List Segment}
    (hs : is_plain s = false) (h : NoAdjacentPlain l) : NoAdjacentPlain (s :: l) := by
  rw [noAdjacentPlain_iff_chain', List.chain'_cons']
  exact ⟨fun y hy => by simp [hs], (noAdjacentPlain_iff_chain' l).mp h⟩

/-- Prepending a plain segment to a chain whose head is not plain preserves
the invariant. -/
lemma noAdjacentPlain_cons_head {t : String} {l : List Segment}
    (h : NoAdjacentPlain l) (hh : ∀ y ∈ l.head?, is_plain y = false) :
    NoAdjacentPlain (.Plain t :: l) := by
  rw [noAdjacentPlain_iff_chain', List.chain'_cons']
  exact ⟨fun y hy => by simp [hh y hy], (noAdjacentPlain_iff_chain' l).mp h⟩

/-- The normalization routine establishes the invariant on any chain. -/
lemma combine_adjacent_text_noAdj : ∀ l : List Segment,
    NoAdjacentPlain (combine_adjacent_text l)
  | [] => noAdjacentPlain_nil
  | .At a b :: rest => noAdjacentPlain_cons_not_plain rfl (combine_adjacent_text_noAdj rest)
  | .AtAll :: rest => noAdjacentPlain_cons_not_plain rfl (combine_adjacent_text_noAdj rest)
  | .Face a b :: rest => noAdjacentPlain_cons_not_plain rfl (combine_adjacent_text_noAdj rest)
  | .Image a b c :: rest => noAdjacentPlain_cons_not_plain rfl (combine_adjacent_text_noAdj rest)
  | .FlashImage a b c :: rest =>
    noAdjacentPlain_cons_not_plain rfl (combine_adjacent_text_noAdj rest)
  | .Xml a :: rest => noAdjacentPlain_cons_not_plain rfl (combine_adjacent_text_noAdj rest)
  | .Json a :: rest => noAdjacentPlain_cons_not_plain rfl (combine_adjacent_text_noAdj rest)
  | .App a :: rest => noAdjacentPlain_cons_not_plain rfl (combine_adjacent_text_noAdj rest)
  | .Poke a :: rest => noAdjacentPlain_cons_not_plain rfl (combine_adjacent_text_noAdj rest)
  | .Plain t :: rest => by
    have ih := combine_adjacent_text_noAdj rest
    simp only [combine_adjacent_text]
    split
    · next t' rest' heq =>
      rw [heq] at ih
      exact noAdjacentPlain_cons_plain ih
    · next hne =>
      refine noAdjacentPlain_cons_head ih fun y hy => ?_
      rcases segment_plain_or y with ⟨ty, rfl⟩ | hns
      · exfalso
        rcases heq2 : combine_adjacent_text rest with _ | ⟨a, as⟩
        · rw [heq2] at hy; simp at hy
        · rw [heq2] at hy
          simp only [List.head?_cons, Option.mem_some_iff] at hy
          subst hy
          exact hne ty as heq2
      · exact hns

/-- The head of a text append onto a non-empty chain can only be plain if
the original head was plain. -/
lemma append_text_head (s : Segment) (rest : List Segment) (t : String) :
    ∃ y l', append_text (s :: rest) t = y :: l' ∧ (is_plain y = true → is_plain s = true) := by
  cases rest with
  | nil =>
    by_cases hp : is_plain s = true
    · exact ⟨.Plain (get_plain s ++ t), [], by simp [append_text, hp], fun _ => hp⟩
    · refine ⟨s, [.Plain t], ?_, fun h => h⟩
      simp [append_text, hp]
  | cons s2 rest' => exact ⟨s, append_text (s2 :: rest') t, rfl, fun h => h⟩

/-- The last element of a text append is always plain. -/
lemma append_text_getLast_plain : ∀ (l : List Segment) (t : String),
    ∃ y, (append_text l t).getLast? = some y ∧ is_plain y = true
  | [], t => ⟨.Plain t, rfl, rfl⟩
  | [s], t => by
    by_cases hp : is_plain s = true
    · exact ⟨.Plain (get_plain s ++ t), by simp [append_text, hp], rfl⟩
    · refine ⟨.Plain t, ?_, rfl⟩
      simp at hp
      simp [append_text, hp]
  | s :: s2 :: rest, t => by
    obtain ⟨y, hy, hp⟩ := append_text_getLast_plain (s2 :: rest) t
    obtain ⟨z, l', hzl, _⟩ := append_text_head s2 rest t
    refine ⟨y, ?_, hp⟩
    have hstep : append_text (s :: s2 :: rest) t = s :: append_text (s2 :: rest) t := rfl
    rw [hstep, hzl, List.getLast?_cons_cons, ← hzl]
    exact hy

/-- Appending a text to a chain preserves the invariant. -/
lemma append_text_noAdj : ∀ (l : List Segment) (t : String),
    NoAdjacentPlain l → NoAdjacentPlain (append_text l t)
  | [], t, _ => noAdjacentPlain_singleton _
  | [s], t, _ => by
    by_cases hp : is_plain s = true
    · simp only [append_text, hp, if_true]
      exact noAdjacentPlain_singleton _
    · have hp' : is_plain s = false := by simpa using hp
      have hstep : append_text [s] t = [s, .Plain t] := by
        simp [append_text, hp']
      rw [hstep]
      exact noAdjacentPlain_cons_not_plain hp' (noAdjacentPlain_singleton _)
  | s :: s2 :: rest, t, h => by
    rw [noAdjacentPlain_iff_chain', List.chain'_cons] at h
    have ih := append_text_noAdj (s2 :: rest) t ((noAdjacentPlain_iff_chain' _).mpr h.2)
    obtain ⟨y, l', hyl, hy⟩ := append_text_head s2 rest t
    rw [show append_text (s :: s2 :: rest) t = s :: append_text (s2 :: rest) t from rfl, hyl]
    rw [hyl] at ih
    rw [noAdjacentPlain_iff_chain', List.chain'_cons]
    refine ⟨fun hc => h.1 ⟨hc.1, hy hc.2⟩, (noAdjacentPlain_iff_chain' _).mp ih⟩

/-- Appending a non-plain segment at the end preserves the invariant. -/
lemma append_end_not_plain_noAdj {l : List Segment} {s : Segment}
    (h : NoAdjacentPlain l) (hs : is_plain s = false) : NoAdjacentPlain (l ++ [s]) := by
  rw [noAdjacentPlain_iff_chain'] at h ⊢
  refine List.Chain'.append h (List.chain'_singleton s) fun x hx y hy => ?_
  simp only [List.head?_cons, Option.mem_some_iff] at hy
  subst hy
  simp [hs]

/-- Appending one segment preserves the invariant. -/
lemma append_segment_noAdj {l : List Segment} (s : Segment)
    (h : NoAdjacentPlain l) : NoAdjacentPlain (append_segment l s) := by
  rcases segment_plain_or s with ⟨t, rfl⟩ | hs
  · exact append_text_noAdj l _ h
  · rw [append_segment, hs]
    exact append_end_not_plain_noAdj h hs

/-- The last element after appending one segment is plain only if the
appended segment was plain. -/
lemma append_segment_getLast (l : List Segment) (s : Segment) :
    ∃ y, (append_segment l s).getLast? = some y ∧ (is_plain y = true → is_plain s = true) := by
  rcases segment_plain_or s with ⟨t, rfl⟩ | hs
  · obtain ⟨y, hy, hp⟩ := append_text_getLast_plain l t
    exact ⟨y, by simpa [append_segment, is_plain] using hy, fun _ => rfl⟩
  · have hstep : append_segment l s = l ++ [s] := by
      rw [append_segment, hs]
      simp
    rw [hstep]
    exact ⟨s, by simp, fun h => h⟩

/-- Appending an internally normalized chain preserves the invariant. -/
lemma append_chain_noAdj {l c : List Segment}
    (hl : NoAdjacentPlain l) (hc : NoAdjacentPlain c) :
    NoAdjacentPlain (append_chain l c) := by
  cases c with
  | nil => exact hl
  | cons s rest =>
    rw [append_chain]
    have hrest : NoAdjacentPlain rest := by
      rw [noAdjacentPlain_iff_chain'] at hc ⊢
      exact List.Chain'.tail hc
    rw [noAdjacentPlain_iff_chain', List.chain'_cons'] at hc
    rw [noAdjacentPlain_iff_chain']
    refine List.Chain'.append ((noAdjacentPlain_iff_chain' _).mp (append_segment_noAdj s hl))
      ((noAdjacentPlain_iff_chain' _).mp hrest) fun x hx y hy => ?_
    obtain ⟨z, hz, hzp⟩ := append_segment_getLast l s
    rw [hz] at hx
    simp only [Option.mem_some_iff] at hx
    subst hx
    intro hcon
    have hsy := hc.1 y hy
    exact hsy ⟨hzp hcon.1, hcon.2⟩

/-- Every single append operation preserves the invariant, provided an
appended chain or message is internally normalized. -/
lemma applyOp_noAdj {l : List Segment} (op : AppendOp)
    (h : NoAdjacentPlain l) (hop : opOK op) : NoAdjacentPlain (applyOp l op) := by
  cases op with
  | seg s => exact append_segment_noAdj s h
  | text t => exact append_text_noAdj l t h
  | chain c => exact append_chain_noAdj h hop
  | msg m => exact append_chain_noAdj h hop

/-- A sequence of append operations preserves the invariant. -/
lemma applyOps_noAdj : ∀ (ops : List AppendOp) (l : List Segment),
    NoAdjacentPlain l → (∀ op ∈ ops, opOK op) → NoAdjacentPlain (applyOps l ops)
  | [], l, h, _ => h
  | op :: ops, l, h, hops => by
    rw [applyOps, List.foldl_cons]
    exact applyOps_noAdj ops _ (applyOp_noAdj op h (hops op (by simp)))
      fun o ho => hops o (by simp [ho])

/-- Every construction or assignment path establishes the invariant. -/
lemma initChain_noAdj : ∀ i : MessageInit, NoAdjacentPlain (initChain i)
  | .empty => noAdjacentPlain_nil
  | .fromChain c => combine_adjacent_text_noAdj c
  | .fromSegment s => noAdjacentPlain_singleton s
  | .fromText _ => noAdjacentPlain_singleton _

/-! Theorems for the closed (counterexample-style) claims. -/

/-- Claim C1: the round-trip law `unescape(escape(s)) = s` fails on the
code.  At the concrete input `s = "}"`, `escape` produces `"]]"`, and
`unescape` returns `"]]"` unchanged instead of decoding it back to `"}"`:
the scan of `unescape` looks only for backslash and `'['`, so its
right-bracket branch is dead and the two-byte sequence `"]]"` is never
decoded. -/
theorem c1_escape_roundtrip_fails_on_right_brace :
    escape ['}'] = [']', ']'] ∧
    unescape (escape ['}']) = UnescapeResult.ok [']', ']'] ∧
    UnescapeResult.ok ([']', ']'] : List Char) ≠ UnescapeResult.ok ['}'] := by
  refine ⟨rfl, rfl, by decide⟩

/-- Claim C6: `unescape` is claimed to fail with a `MalformedEscape` error
whenever a reserved lead byte is the last byte of the input.  On the input
of three backslashes the first pair is consumed (`offset` becomes 2), and
the trailing backslash at the last position does not trigger the
malformed-input check (the source compares `pos - offset`, not `pos`, with
`size - 1`); instead the code reads `escaped[pos + 1]`, one byte past the
end of the input. -/
theorem c6_unescape_trailing_lead_reads_out_of_bounds :
    unescape ['\\', '\\', '\\'] = UnescapeResult.oob ∧
    UnescapeResult.oob ≠ UnescapeResult.malformed := by
  refine ⟨rfl, by decide⟩

/-- Claim C3: the static name table `event_type_names` is claimed to have
one entry per alternative of `EventVariant` with entry `i` naming
alternative `i`.  In the code the initializer list has only 30 entries for
the 32 alternatives (it skips `BotLeaveEventActive` and
`BotLeaveEventKick`), so the array is padded with two empty entries and
every entry from index 14 on names the wrong alternative: the entry at the
index of `BotLeaveEventActive` (14) reads `"GroupNameChangeEvent"`, the
entry at the index of `GroupNameChangeEvent` (16) reads
`"GroupMuteAllEvent"`, and no entry at all names `BotLeaveEventActive`. -/
theorem c3_event_name_table_misaligned :
    eventTypeNamesEntries.length = 30 ∧
    eventVariantAlternatives.length = 32 ∧
    event_type_names.length = 32 ∧
    eventVariantAlternatives.getD 14 "" = "BotLeaveEventActive" ∧
    event_type_names.getD 14 "" = "GroupNameChangeEvent" ∧
    eventVariantAlternatives.getD 16 "" = "GroupNameChangeEvent" ∧
    event_type_names.getD 16 "" = "GroupMuteAllEvent" ∧
    event_type_names.contains "BotLeaveEventActive" = false ∧
    event_type_names.getD 30 "missing" = "" ∧
    event_type_names.getD 31 "missing" = "" := by
  decide

/-- Claim C8 counterexample: the `Event` union is claimed to have exactly 31
alternatives, but `EventVariant` lists 32. -/
theorem c8_not_31_alternatives : ¬ eventVariantAlternatives.length = 31 := by
  decide

/-- Claim C8 (amended): the `Event` tagged union is built over exactly 32
alternative event types, and the discriminant enum (`EventType`, excluding
the `max_value` sentinel) has exactly as many enumerators as the alternative
list, as the `static_assert` in `events.h` checks. -/
theorem c8_event_union_has_32_alternatives :
    eventVariantAlternatives.length = 32 ∧
    eventTypeEnumerators.length = eventVariantAlternatives.length := by
  decide

/-- Claim C7: the compile-time mapping `detail::segment_type` is claimed to
send every `SegmentType` enumerator to the same-named alternative of the
segment variant.  Because it indexes `MsgTuple`, whose element list starts
with the two non-segment structs `Source` and `Quote`, every enumerator is
in fact sent to the struct two positions before the same-named one:
`SegmentType::at` maps to `Source` (not `At`), `SegmentType::plain` maps to
`AtAll` (not `Plain`), and no enumerator maps to its same-named
alternative. -/
theorem c7_segment_type_mapping_shifted_by_two :
    detail_segment_type .at_ = "Source" ∧
    segmentVariantName .at_ = "At" ∧
    detail_segment_type .plain = "AtAll" ∧
    segmentVariantName .plain = "Plain" ∧
    segmentTypeValues.all (fun t => detail_segment_type t != segmentVariantName t) = true := by
  decide

/-- Claim C2: for every `Message` built by any constructor or assignment and
then modified by any sequence of append operations (segments, plain-text
strings, messages, or internally normalized chains), the underlying chain
never contains two adjacent `Plain` segments; and appending
`Plain("a")`, `Plain("b")`, a mention, then `Plain("c")` to an empty
message yields the three-element chain `[Plain("ab"), mention,
Plain("c")]`. -/
theorem c2_merge_invariant (init : MessageInit) (ops : List AppendOp)
    (h : ∀ op ∈ ops, opOK op) :
    NoAdjacentPlain (applyOps (initChain init) ops) ∧
    applyOps (initChain .empty)
        [.seg (.Plain "a"), .seg (.Plain "b"), .seg (.At 1 ""), .seg (.Plain "c")] =
      [.Plain "ab", .At 1 "", .Plain "c"] :=
  ⟨applyOps_noAdj ops (initChain init) (initChain_noAdj init) h, by decide⟩

/-- Claim C2 witness: the merge-invariant theorem applied at a concrete
construction path and a concrete sequence of append operations. -/
theorem c2_merge_invariant_witness :
    (∀ op ∈ ([.text "x", .chain [.At 1 "", .Plain "y"]] : List AppendOp), opOK op) ∧
    (NoAdjacentPlain
        (applyOps (initChain (.fromText "hi")) [.text "x", .chain [.At 1 "", .Plain "y"]]) ∧
      applyOps (initChain .empty)
          [.seg (.Plain "a"), .seg (.Plain "b"), .seg (.At 1 ""), .seg (.Plain "c")] =
        [.Plain "ab", .At 1 "", .Plain "c"]) := by
  have h : ∀ op ∈ ([.text "x", .chain [.At 1 "", .Plain "y"]] : List AppendOp), opOK op := by
    intro op hop
    simp only [List.mem_cons, List.not_mem_nil, or_false] at hop
    rcases hop with rfl | rfl
    · trivial
    · show NoAdjacentPlain [.At 1 "", .Plain "y"]
      decide
  exact ⟨h, c2_merge_invariant (.fromText "hi") [.text "x", .chain [.At 1 "", .Plain "y"]] h⟩

/-- Claim C4: `ends_with(text)` is claimed to test the text of the LAST
`Plain` segment.  The source checks that the last element is plain but then
tests the text of the FIRST element: on the chain
`[Plain("ab"), At(1), Plain("cd")]` with argument `"ab"`, the code returns
true although the last plain segment `"cd"` does not end with `"ab"`. -/
theorem c4_ends_with_tests_front_text :
    Message.ends_with ⟨[.Plain "ab", .At 1 "", .Plain "cd"]⟩ "ab" = true ∧
    claimed_ends_with ⟨[.Plain "ab", .At 1 "", .Plain "cd"]⟩ "ab" = false := by
  decide

/-! Helper lemmas for text extraction. -/

/-- Folding string concatenation distributes over a prefixed accumulator. -/
lemma foldl_append_str : ∀ (l : List String) (a b : String),
    l.foldl (· ++ ·) (a ++ b) = a ++ l.foldl (· ++ ·) b
  | [], a, b => by simp
  | c :: rest, a, b => by
    simp only [List.foldl_cons]
    rw [String.append_assoc]
    exact foldl_append_str rest a (b ++ c)

/-- Unfolding one element of `String.join`. -/
lemma join_cons (s : String) (l : List String) :
    String.join (s :: l) = s ++ String.join l := by
  show (s :: l).foldl (· ++ ·) "" = s ++ l.foldl (· ++ ·) ""
  rw [List.foldl_cons]
  have h1 : ("" : String) ++ s = s ++ "" := by
    simp
  rw [h1, foldl_append_str]

/-- The extraction step ignores non-plain segments. -/
lemma extract_step_not_plain (res : String) {s : Segment} (hs : is_plain s = false) :
    extract_step res s = res := by
  cases s <;> simp [is_plain] at hs ⊢ <;> rfl

/-- The extraction step and the plain-text projection agree. -/
lemma plain_text?_not_plain {s : Segment} (hs : is_plain s = false) :
    plain_text? s = none := by
  cases s <;> simp [is_plain, plain_text?] at hs ⊢

/-- Generalized-accumulator form of the text-extraction fold. -/
lemma extract_text_aux : ∀ (l : List Segment) (acc : String),
    l.foldl extract_step acc = acc ++ String.join (l.filterMap plain_text?)
  | [], acc => by simp [String.join]
  | s :: rest, acc => by
    rcases segment_plain_or s with ⟨t, rfl⟩ | hs
    · rw [List.foldl_cons,
        show extract_step acc (.Plain t) = acc ++ t from rfl,
        List.filterMap_cons,
        show plain_text? (Segment.Plain t) = some t from rfl]
      rw [extract_text_aux rest (acc ++ t), join_cons, ← String.append_assoc]
    · rw [List.foldl_cons, extract_step_not_plain acc hs,
        List.filterMap_cons, plain_text?_not_plain hs]
      exact extract_text_aux rest acc

/-- Claim C9: `extract_text` returns the concatenation, in chain order, of
the text of every `Plain` segment, ignoring all non-plain segments; and
`extract_text` is not injective: the messages `[Plain("x")]` and
`[At(1), Plain("x")]` compare unequal under the structural `operator==` yet
extract the same text. -/
theorem c9_extract_text_concatenation (m : Message) :
    extract_text m = String.join (m.chain_.filterMap plain_text?) ∧
    messageEq ⟨[.Plain "x"]⟩ ⟨[.At 1 "", .Plain "x"]⟩ = false ∧
    extract_text ⟨[.Plain "x"]⟩ = extract_text ⟨[.At 1 "", .Plain "x"]⟩ := by
  refine ⟨?_, by decide, by decide⟩
  rw [extract_text, extract_text_aux m.chain_ ""]
  simp

/-- Claim C10: `operator==(const Message&, std::string_view)` returns true
exactly when the chain has exactly one segment, that segment is `Plain`,
and its text equals the string; consequently an empty message and a
multi-segment message never equal any string. -/
theorem c10_message_equals_string_iff (m : Message) (s : String) :
    msg_eq_str m s = true ↔ m.chain_ = [Segment.Plain s] := by
  obtain ⟨l⟩ := m
  cases l with
  | nil => simp [msg_eq_str]
  | cons x rest =>
    cases rest with
    | cons y rest' => simp [msg_eq_str]
    | nil =>
      rcases segment_plain_or x with ⟨t, rfl⟩ | hx
      · simp [msg_eq_str, is_plain, get_plain]
      · have hcode : msg_eq_str ⟨[x]⟩ s = false := by
          simp [msg_eq_str, hx]
        rw [hcode]
        simp
        rintro rfl
        simp [is_plain] at hx

/-! Helper lemmas for the typed pattern match. -/

/-- Pointwise characterization of the kind-map equation. -/
lemma map_kind_iff : ∀ (ts : List SegmentType) (cs : List Segment),
    cs.map Segment.kind = ts ↔
      (cs.length = ts.length ∧
        ∀ i, i < ts.length → (cs.getD i default).kind = ts.getD i default)
  | [], [] => by simp
  | [], c :: cs' => by simp
  | t :: ts', [] => by simp
  | t :: ts', c :: cs' => by
    constructor
    · intro h
      rw [List.map_cons, List.cons.injEq] at h
      obtain ⟨hk, hmap⟩ := h
      have ih := (map_kind_iff ts' cs').mp hmap
      refine ⟨by simp [ih.1], ?_⟩
      intro i hi
      simp only [List.length_cons] at hi
      cases i with
      | zero => simpa using hk
      | succ j =>
        simp only [List.getD_cons_succ]
        exact ih.2 j (by omega)
    · rintro ⟨hlen, hall⟩
      have h0 := hall 0 (by simp)
      simp only [List.getD_cons_zero] at h0
      rw [List.map_cons, List.cons.injEq]
      refine ⟨h0, (map_kind_iff ts' cs').mpr ⟨by simpa using hlen, fun i hi => ?_⟩⟩
      have := hall (i + 1) (by simpa using Nat.succ_lt_succ hi)
      simpa [List.getD_cons_succ] using this

/-- The pointer-collection phase of `match_types_impl`, characterized on the
underlying lists: when the sizes agree, the result is present exactly when
every position's kind matches, and then it is the chain itself. -/
lemma match_types_zip_aux : ∀ (ts : List SegmentType) (cs : List Segment),
    cs.length = ts.length →
    (if ((ts.zip cs).map fun p => get_if p.1 p.2).any (fun o => o.isNone) then
        (none : Option (List Segment))
      else some (((ts.zip cs).map fun p => get_if p.1 p.2).filterMap id))
    = if cs.map Segment.kind = ts then some cs else none
  | [], cs, h => by
    have : cs = [] := List.length_eq_zero.mp h
    subst this
    simp
  | t :: ts', [], h => by simp at h
  | t :: ts', c :: cs', h => by
    have h' : cs'.length = ts'.length := by simpa using h
    have ih := match_types_zip_aux ts' cs' h'
    by_cases hk : c.kind = t
    · have hg : get_if t c = some c := by simp [get_if, hk]
      simp only [List.zip_cons_cons, List.map_cons, hg, List.any_cons, Option.isNone_some,
        Bool.false_or, List.filterMap_cons, id_eq, hk]
      by_cases hm : cs'.map Segment.kind = ts'
      · have hcond : (t :: cs'.map Segment.kind) = t :: ts' := by rw [hm]
        rw [if_pos hcond]
        rw [if_pos hm] at ih
        by_cases ha :
            (((ts'.zip cs').map fun p => get_if p.1 p.2).any fun o => o.isNone) = true
        · rw [if_pos ha] at ih
          cases ih
        · rw [if_neg ha] at ih
          rw [if_neg ha]
          simp only [Option.some.injEq] at ih ⊢
          rw [ih]
      · have hcond : ¬((t :: cs'.map Segment.kind) = t :: ts') := by simp [hm]
        rw [if_neg hcond]
        rw [if_neg hm] at ih
        by_cases ha :
            (((ts'.zip cs').map fun p => get_if p.1 p.2).any fun o => o.isNone) = true
        · rw [if_pos ha]
        · rw [if_neg ha] at ih
          exact absurd ih (by simp)
    · have hg : get_if t c = none := by simp [get_if, hk]
      have hcond : ¬((c.kind :: cs'.map Segment.kind) = t :: ts') := by simp [hk]
      simp [List.zip_cons_cons, hg, hcond, hk]

/-- Claim C5: the typed pattern match succeeds, returning read-only
references to positions `0..k-1` of the chain (modelled by the chain
elements themselves), exactly when the chain length equals the number of
expected types and every position's active alternative is the expected one;
in every other case (wrong arity, or wrong type at any position, including
wrong order) it returns the absent result.  The operation is a pure
function of the message and therefore leaves it unchanged. -/
theorem c5_match_types_exact (ts : List SegmentType) (m : Message) :
    match_types_impl ts m =
      if m.chain_.length = ts.length ∧
          ∀ i, i < ts.length → (m.chain_.getD i default).kind = ts.getD i default
      then some m.chain_ else none := by
  obtain ⟨cs⟩ := m
  show (if cs.length != ts.length then none
      else
        if ((ts.zip cs).map fun p => get_if p.1 p.2).any (fun o => o.isNone) then none
        else some (((ts.zip cs).map fun p => get_if p.1 p.2).filterMap id))
    = _
  by_cases hlen : cs.length = ts.length
  · have hb : (cs.length != ts.length) = false := by simp [hlen]
    rw [hb]
    simp only [Bool.false_eq_true, if_false]
    rw [match_types_zip_aux ts cs hlen]
    by_cases hm : cs.map Segment.kind = ts
    · rw [if_pos hm, if_pos ((map_kind_iff ts cs).mp hm)]
    · rw [if_neg hm, if_neg fun hc => hm ((map_kind_iff ts cs).mpr hc)]
  · have hb : (cs.length != ts.length) = true := by simpa using hlen
    rw [hb]
    simp only [if_true]
    rw [if_neg fun hc => hlen hc.1]

end Miraipp



